import Mathlib

/-!
Verification of the HaruQuant decision pipeline against its specification.

The Python source is shallowly embedded: pandas Series become `List (Option ℚ)`
(`none` models NaN), DataFrames become parallel lists or structures, and the
relevant methods of `PortfolioRiskMan` (src/controller/risk.py and
src/controllers/risk.py), the indicator/swing functions
(src/controller/technicals.py), the strategy decision logic
(src/controller/strategy.py) and position sizing (src/controller/order.py,
src/controllers/technicals.py) become executable Lean functions over ℚ.
-/

namespace HaruQuant

/-! ## Pandas / NumPy primitives -/

/-- Pandas `Series.shift(1)`: every value moves one slot later, slot 0 becomes
NaN (`none`), the last value falls off; the length is unchanged. -/
def shiftOpt {α : Type} (l : List (Option α)) : List (Option α) :=
  (none :: l).dropLast

/-- Pandas `Series.ffill()` with carried state: a `none` entry is replaced by
the most recent `some` entry before it (or stays `none` if there is none). -/
def ffillAux {α : Type} (carry : Option α) : List (Option α) → List (Option α)
  | [] => []
  | x :: xs =>
    match x with
    | some v => some v :: ffillAux (some v) xs
    | none => carry :: ffillAux carry xs

/-- Pandas `Series.ffill()`. -/
def ffill {α : Type} (l : List (Option α)) : List (Option α) :=
  ffillAux none l

/-- Python list / pandas `.iloc` indexing with negative-index wraparound:
`l[i]` for `i < 0` means `l[len l + i]`; out of range is an error (`none`). -/
def pyget {α : Type} (l : List α) (i : Int) : Option α :=
  if i < 0 then
    let j : Int := (l.length : Int) + i
    if j < 0 then none else l.get? j.toNat
  else l.get? i.toNat

/-- Python slice / pandas `.iloc[s:e]` with step 1: negative endpoints count
from the end and the bounds are clamped to the list. -/
def pyslice {α : Type} (l : List α) (s e : Int) : List α :=
  let n : Int := (l.length : Int)
  let s' : Int := if s < 0 then max 0 (n + s) else min s n
  let e' : Int := if e < 0 then max 0 (n + e) else min e n
  (l.drop s'.toNat).take (e'.toNat - s'.toNat)

/-- Collects a window of optional values; `none` if any entry is NaN
(pandas rolling statistics yield NaN whenever the window holds a NaN). -/
def allSome : List (Option ℚ) → Option (List ℚ)
  | [] => some []
  | none :: _ => none
  | some x :: xs => (allSome xs).map (fun v => x :: v)

/-- Sample variance with `ddof = 1` (the pandas default for `.std()`),
mean taken as sum over length. -/
def sampleVar (l : List ℚ) : ℚ :=
  let m : ℚ := l.sum / (l.length : ℚ)
  (l.map (fun x => (x - m) ^ 2)).sum / ((l.length : ℚ) - 1)

/-- Pandas `Series.rolling(w).var(ddof := 1)` evaluated at every position:
defined once the full window of `w` non-NaN values is available and `w ≥ 2`
(with `ddof = 1` a single-element window has no variance). The code takes the
square root of this to get `.std()`; comparing variances is equivalent since
`Real.sqrt` is injective on nonnegative values. -/
def rollingVar (w : ℕ) (s : List (Option ℚ)) : List (Option ℚ) :=
  (List.range s.length).map (fun t =>
    if 2 ≤ w ∧ w ≤ t + 1 then
      match allSome ((s.drop (t + 1 - w)).take w) with
      | some vals => some (sampleVar vals)
      | none => none
    else none)

/-- NumPy `np.percentile(a, p)` with the default linear interpolation:
sort ascending, locate `h = p/100 * (n-1)`, interpolate between the two
neighbouring order statistics. -/
def np_percentile (a : List ℚ) (p : ℚ) : ℚ :=
  let s := a.mergeSort
  let h : ℚ := p / 100 * ((a.length : ℚ) - 1)
  let l : ℕ := (⌊h⌋).toNat
  let x0 : ℚ := s.getD l 0
  let x1 : ℚ := s.getD (l + 1) x0
  x0 + (h - (l : ℚ)) * (x1 - x0)

/-- Round to the nearest integer, ties to even (IEEE / Python `round`). -/
def rhe (x : ℚ) : ℤ :=
  if x - ⌊x⌋ < 1 / 2 then ⌊x⌋
  else if 1 / 2 < x - ⌊x⌋ then ⌊x⌋ + 1
  else if ⌊x⌋ % 2 = 0 then ⌊x⌋ else ⌊x⌋ + 1

/-- Python `round(x, 2)`: round to the nearest multiple of 1/100,
ties to even. -/
def pyround2 (x : ℚ) : ℚ :=
  ((rhe (x * 100) : ℚ)) / 100

/-! ## Portfolio Risk Engine (`PortfolioRiskMan`)

State of the risk manager; association lists model the Python dicts
(`positions`, `nominal_values`, `position_weights`), keeping insertion order
as Python dicts do. -/

structure RiskState where
  positions : List (String × ℚ)
  nominal_values : List (String × ℚ)
  portfolio_nominal_value : ℚ
  position_weights : List (String × ℚ)
deriving Repr, DecidableEq

/-- Embeds `PortfolioRiskMan.calculate_weights` (identical in
src/controller/risk.py lines 110-120 and src/controllers/risk.py lines
105-115): if `portfolio_nominal_value == 0` the method prints a warning and
returns `self.position_weights` unchanged; otherwise it rebuilds the weight
map as `nominal_value / portfolio_nominal_value` per symbol. The method
returns the (possibly updated) `position_weights` field, which we read off
the returned state. -/
def calculate_weights (st : RiskState) : RiskState :=
  if st.portfolio_nominal_value = 0 then
    st
  else
    { st with position_weights :=
        (st.nominal_values.map
          (fun p => (p.1, p.2 / st.portfolio_nominal_value))) }

/-- Embeds `PortfolioRiskMan.calculate_var` (src/controller/risk.py lines
145-151). The z-score is computed as
`np.abs(np.percentile(np.random.normal(0, 1, 100000), (1 - confidence) * 100))`;
the vector drawn by `np.random.normal` is made explicit as the `samples`
argument (the code draws 100000 of them from the ambient NumPy random state). -/
def calculate_var (samples : List ℚ) (confidence std nominal : ℚ) : ℚ :=
  let z : ℚ := |np_percentile samples ((1 - confidence) * 100)|
  std * z * nominal

/-- Replaces the value stored under a key, like `d[k] = v` for an existing
Python dict key (position in the dict is preserved). -/
def setKey (book : List (String × ℚ)) (sym : String) (v : ℚ) :
    List (String × ℚ) :=
  book.map (fun p => if p.1 = sym then (p.1, v) else p)

/-- Removes a key, like `del d[k]`. -/
def eraseKey (book : List (String × ℚ)) (sym : String) : List (String × ℚ) :=
  book.filter (fun p => p.1 ≠ sym)

/-- Embeds `PortfolioRiskMan.add_position` (src/controller/risk.py lines
160-167 together with `remove_position` lines 169-172; identical in
src/controllers/risk.py): an existing entry is incremented and deleted when
the sum reaches 0; a new symbol is inserted with the given lot size, with no
zero check on that branch. -/
def add_position (book : List (String × ℚ)) (sym : String) (lot : ℚ) :
    List (String × ℚ) :=
  match book.lookup sym with
  | some prev =>
    if prev + lot = 0 then eraseKey book sym
    else setKey book sym (prev + lot)
  | none => book ++ [(sym, lot)]

/-- Embeds `PortfolioRiskMan.calculate_volatility` (src/controller/risk.py
lines 52-59, identical in src/controllers/risk.py lines 47-54) for one
symbol, at the level of squared deviations: the input is the `log_returns`
column, the code computes `log_returns.shift(1).rolling(w).std()` and stores
`.iloc[-2]` of that column into `std_dev_returns`. -/
def calculate_volatility_sq (col : List (Option ℚ)) (w : ℕ) : Option ℚ :=
  if col.length < 2 then none
  else (rollingVar w (shiftOpt col)).getD (col.length - 2) none

/-- Modelled from the spec ("Volatility per symbol = standard deviation of
log-returns over a rolling `volatility_period`, using the lag-shifted window
(exclude the most recent unclosed bar)"): the variance of the `w` most recent
log-returns excluding only the return of the final (unclosed) bar. Used to
compare the code's window against the specified one. -/
def spec_volatility_sq (col : List (Option ℚ)) (w : ℕ) : Option ℚ :=
  if col.length < w + 1 ∨ w < 2 then none
  else
    match allSome ((col.drop (col.length - 1 - w)).take w) with
    | some vals => some (sampleVar vals)
    | none => none

/-! ## Swing-State Engine and Pivot Extractor (src/controller/technicals.py) -/

/-- Boolean test `a > c` under NaN semantics: any comparison with NaN is
false. -/
def optGtB (a : Option ℚ) (c : ℚ) : Bool :=
  match a with
  | some x => decide (c < x)
  | none => false

/-- Boolean test `a < c` under NaN semantics. -/
def optLtB (a : Option ℚ) (c : ℚ) : Bool :=
  match a with
  | some x => decide (x < c)
  | none => false

/-- Embeds the swingline computation of `calculate_willpct_swing_lines`
(src/controller/technicals.py lines 482-519). The input is the Williams %R
column (`none` during warm-up); the code lags it by one bar
(`df['WPR'] = df['WPR'].shift(1)`), takes `prev_WPR` as a further shift, sets
`1` when `WPR > -20` and `prev_WPR < -20`, `-1` when `WPR < -80` and
`prev_WPR > -80`, NaN otherwise, and forward-fills. -/
def calculate_willpct_swing_lines (wpr : List (Option ℚ)) : List (Option Int) :=
  let w := shiftOpt wpr
  let pw := shiftOpt w
  ffill ((List.range wpr.length).map (fun t =>
    if optGtB (w.getD t none) (-20) && optLtB (pw.getD t none) (-20) then
      some 1
    else if optLtB (w.getD t none) (-80) && optGtB (pw.getD t none) (-80) then
      some (-1)
    else none))

/-- The oscillator value one bar back (the column after
`df['WPR'] = df['WPR'].shift(1)`), as seen at bar `t`. -/
def wprLag1 (wpr : List (Option ℚ)) (t : ℕ) : Option ℚ :=
  if t = 0 then none else wpr.getD (t - 1) none

/-- The oscillator value two bars back (`prev_WPR`), as seen at bar `t`. -/
def wprLag2 (wpr : List (Option ℚ)) (t : ℕ) : Option ℚ :=
  if t ≤ 1 then none else wpr.getD (t - 2) none

/-- Embeds the per-bar trend computation inside
`calculate_breakout_candles_swing_lines` (src/controller/technicals.py lines
522-560): bars before `lookback` get trend 0; later bars compare the previous
close against the window `df['High'].iloc[i-1-lookback : i-1]` (note that at
`i = lookback` the start index is `-1`, so the Python slice is empty and both
`all(...)` tests are vacuous, the first branch winning). -/
def breakout_trend_at (highs lows closes : List ℚ) (lookback i : ℕ) :
    Option Int :=
  if i < lookback then some 0
  else
    match pyget closes ((i : Int) - 1) with
    | none => none
    | some c =>
      let hw := pyslice highs ((i : Int) - 1 - (lookback : Int)) ((i : Int) - 1)
      let lw := pyslice lows ((i : Int) - 1 - (lookback : Int)) ((i : Int) - 1)
      if hw.all (fun h => decide (h < c)) then some 1
      else if lw.all (fun l => decide (c < l)) then some (-1)
      else none

/-- Embeds `calculate_breakout_candles_swing_lines`: the per-bar trends,
forward-filled into the swingline column. -/
def calculate_breakout_candles_swing_lines (highs lows closes : List ℚ)
    (lookback : ℕ) : List (Option Int) :=
  ffill ((List.range closes.length).map (breakout_trend_at highs lows closes lookback))

/-- Embeds `calculate_swingline_alerts` (src/controller/technicals.py lines
619-640): signal 1 where the swingline is 1 and the previous bar's swingline
was -1, signal -1 in the mirrored case, 0 otherwise (NaN comparisons are
false). -/
def calculate_swingline_alerts (swing : List (Option Int)) : List Int :=
  (List.range swing.length).map (fun i =>
    let prev : Option Int := if i = 0 then none else swing.getD (i - 1) none
    if swing.getD i none = some 1 ∧ prev = some (-1) then 1
    else if swing.getD i none = some (-1) ∧ prev = some 1 then -1
    else 0)

/-- One bar as seen by the pivot extractor: its swingline value (NaN possible)
and its High and Low prices. -/
structure SwingBar where
  swing : Option Int
  high : ℚ
  low : ℚ
deriving Repr, DecidableEq

instance : Inhabited SwingBar := ⟨⟨none, 0, 0⟩⟩

/-- Two consecutive bars belong to the same pandas group for
`(df['swingline'] != df['swingline'].shift()).cumsum()` exactly when both
values are non-NaN and equal (NaN never equals anything, NaN included). -/
def sameRun : Option Int → Option Int → Bool
  | some a, some b => a == b
  | _, _ => false

/-- Splits the bar list into the pandas groups of consecutive equal
swingline values; every NaN bar is a group of its own. -/
def runSplit : List SwingBar → List (List SwingBar)
  | [] => []
  | x :: xs =>
    (x :: xs.takeWhile (fun y => sameRun x.swing y.swing)) ::
      runSplit (xs.dropWhile (fun y => sameRun x.swing y.swing))
termination_by l => l.length
decreasing_by
  simp only [List.length_cons]
  have := (List.dropWhile_suffix (l := xs) (fun y => sameRun x.swing y.swing)).length_le
  omega

/-- Position of the first occurrence of the maximum (pandas `idxmax` on a
default integer index). -/
def firstMaxIdx : List ℚ → ℕ
  | [] => 0
  | [_] => 0
  | x :: y :: t =>
    if x < (y :: t).getD (firstMaxIdx (y :: t)) 0 then firstMaxIdx (y :: t) + 1
    else 0

/-- Position of the first occurrence of the minimum (pandas `idxmin`). -/
def firstMinIdx : List ℚ → ℕ
  | [] => 0
  | [_] => 0
  | x :: y :: t =>
    if (y :: t).getD (firstMinIdx (y :: t)) 0 < x then firstMinIdx (y :: t) + 1
    else 0

/-- Marks inside one group: a group whose swingline value is -1 gets a -1 mark
at its minimum Low, a group whose value is 1 gets a 1 mark at its maximum
High (first occurrence, as `idxmin`/`idxmax` return), any other group is left
unmarked; mirrors the loop body of `calculate_fractal_pivot_points`. -/
def markRun (r : List SwingBar) : List (Option Int) :=
  match r with
  | [] => []
  | x :: _ =>
    if x.swing = some (-1) then
      (List.range r.length).map
        (fun k => if k = firstMinIdx (r.map (fun b => b.low)) then some (-1) else none)
    else if x.swing = some 1 then
      (List.range r.length).map
        (fun k => if k = firstMaxIdx (r.map (fun b => b.high)) then some 1 else none)
    else List.replicate r.length none

/-- Embeds `calculate_fractal_pivot_points` (src/controller/technicals.py
lines 647-682): group consecutive equal swingline values, then mark one bar
per group; the result is the `isPivot` column. -/
def calculate_fractal_pivot_points (bars : List SwingBar) : List (Option Int) :=
  ((runSplit bars).map markRun).flatten

/-! ## Signal Generator / strategies (src/controller/strategy.py) -/

/-- Pandas `.tail(2)`: the last two elements (fewer if the list is shorter). -/
def lastTwo (l : List ℚ) : List ℚ :=
  l.drop (l.length - 2)

/-- Embeds the decision logic of `williams_percent_momentum_strategy`
(src/controller/strategy.py lines 81-135) given the base signal at the last
bar, the chronological pivot-high and pivot-low price lists and the current
ATR value: take the last two pivots of each kind (`tail(2)`), require at
least two of each, validate with the pivot-spacing and ATR rules, and emit
the position. -/
def williams_percent_momentum_position (signal : Int)
    (pivotHighs pivotLows : List ℚ) (atr : ℚ) : Int :=
  let highs := lastTwo pivotHighs
  let lows := lastTwo pivotLows
  let h0 := highs.getD 0 0
  let h1 := highs.getD 1 0
  let l0 := lows.getD 0 0
  let l1 := lows.getD 1 0
  let enough := decide (1 < highs.length) && decide (1 < lows.length)
  let valid_buy := enough && (decide (h1 < h0) &&
    (decide (l0 < l1) || decide (|l1 - l0| ≤ atr)))
  let valid_sell := enough && (decide (l0 < l1) &&
    (decide (h1 < h0) || decide (|h1 - h0| ≤ atr)))
  if signal = 1 ∧ valid_buy = true then 1
  else if signal = -1 ∧ valid_sell = true then -1
  else 0

/-! ## Double top / double bottom (src/controller/technicals.py lines 749-855) -/

/-- The time-interleaving order condition of `calculate_doubles_signals`:
`idxlows[0] < idxhighs[0] < idxlows[1] < idxhighs[1] < idxlows[2] < idxhighs[2]`. -/
def doubles_order_condition (idxlows idxhighs : List ℕ) : Bool :=
  decide (idxlows.getD 0 0 < idxhighs.getD 0 0) &&
  decide (idxhighs.getD 0 0 < idxlows.getD 1 0) &&
  decide (idxlows.getD 1 0 < idxhighs.getD 1 0) &&
  decide (idxhighs.getD 1 0 < idxlows.getD 2 0) &&
  decide (idxlows.getD 2 0 < idxhighs.getD 2 0)

/-- The double-bottom condition of `calculate_doubles_signals`, literally:
`highs[0] > lows[1] and lows[1] < highs[0] and
highs[0] > highs[1] > lows[2] > lows[1] and highs[1] > highs[2] > lows[2]`. -/
def doubles_bottom_cond (highs lows : List ℚ) : Bool :=
  let h0 := highs.getD 0 0
  let h1 := highs.getD 1 0
  let h2 := highs.getD 2 0
  let l1 := lows.getD 1 0
  let l2 := lows.getD 2 0
  decide (l1 < h0) && decide (l1 < h0) &&
  (decide (h1 < h0) && decide (l2 < h1) && decide (l1 < l2)) &&
  (decide (h2 < h1) && decide (l2 < h2))

/-- The double-top condition of `calculate_doubles_signals`, literally:
`lows[0] < highs[1] and lows[0] < lows[1] < highs[1] and
highs[1] > highs[2] > lows[1] and highs[2] > lows[2] > lows[1]`. -/
def doubles_top_cond (highs lows : List ℚ) : Bool :=
  let h1 := highs.getD 1 0
  let h2 := highs.getD 2 0
  let l0 := lows.getD 0 0
  let l1 := lows.getD 1 0
  let l2 := lows.getD 2 0
  decide (l0 < h1) && (decide (l0 < l1) && decide (l1 < h1)) &&
  (decide (h2 < h1) && decide (l1 < h2)) &&
  (decide (l2 < h2) && decide (l1 < l2))

/-- Embeds the per-bar body of `calculate_doubles_signals`
(src/controller/technicals.py lines 793-821) at a bar whose base `signal` is
given, with the last three pivot-high prices/indices and pivot-low
prices/indices (chronological): position starts at 0, is set to 1 when the
order condition and the double-bottom condition hold, and is then set to -1
(overwriting any 1) when the order condition and the double-top condition
hold. -/
def calculate_doubles_position (signal : Int) (idxhighs idxlows : List ℕ)
    (highs lows : List ℚ) : Int :=
  if signal ≠ 0 ∧ 2 < highs.length ∧ 2 < lows.length then
    let order := doubles_order_condition idxlows idxhighs
    let pos1 : Int := if order && doubles_bottom_cond highs lows then 1 else 0
    let pos2 : Int := if order && doubles_top_cond highs lows then -1 else pos1
    pos2
  else 0

/-! ## Position sizing -/

/-- Embeds `get_position_size` (src/controller/order.py lines 16-34): pip
value per lot is `10 * trade_tick_value`, the money at risk is
`risk_base_amount * max_risk_per_trade / 100`, and the lot size is the
quotient rounded with Python `round(x, 2)` and clamped below by 0. -/
def get_position_size (tick_value stop_pips max_risk_per_trade
    risk_base_amount : ℚ) : ℚ :=
  let pip_value_per_lot := 10 * tick_value
  let money_risk := risk_base_amount * (max_risk_per_trade / 100)
  let pip_risk_value := stop_pips * pip_value_per_lot
  max 0 (pyround2 (money_risk / pip_risk_value))

/-- Embeds the `get_position_size` revision in src/controllers/technicals.py
lines 154-170: the quotient uses the tick value directly (no pip factor) and
the result is rounded with `round(x, 2)` without the clamp at 0. -/
def get_position_size_points (tick_value stop_points max_risk_per_trade
    risk_base_amount : ℚ) : ℚ :=
  let money_risk := risk_base_amount * (max_risk_per_trade / 100)
  pyround2 (money_risk / (stop_points * tick_value))

/-! ## Generic lemmas about the pandas primitives -/

theorem getD_range_map {α : Type} (f : ℕ → α) (n t : ℕ) (d : α) (h : t < n) :
    ((List.range n).map f).getD t d = f t := by
  simp [List.getD_eq_getElem?_getD, List.getElem?_map, List.getElem?_range, h]

theorem getD_range_map_ge {α : Type} (f : ℕ → α) (n t : ℕ) (d : α)
    (h : n ≤ t) : ((List.range n).map f).getD t d = d := by
  have : ((List.range n).map f).length ≤ t := by simpa using h
  simp [List.getD_eq_getElem?_getD, List.getElem?_eq_none this]

theorem shiftOpt_length {α : Type} (l : List (Option α)) :
    (shiftOpt l).length = l.length := by
  simp [shiftOpt]

theorem shiftOpt_getD {α : Type} (l : List (Option α)) (t : ℕ)
    (h : t < l.length) :
    (shiftOpt l).getD t none = if t = 0 then none else l.getD (t - 1) none := by
  have e1 : (shiftOpt l)[t]? = (none :: l)[t]? := by
    rw [shiftOpt, List.getElem?_dropLast]
    simp [h]
  rw [List.getD_eq_getElem?_getD, e1]
  cases t with
  | zero => simp
  | succ s => simp [List.getD_eq_getElem?_getD]

theorem ffillAux_length {α : Type} (c : Option α) (l : List (Option α)) :
    (ffillAux c l).length = l.length := by
  induction l generalizing c with
  | nil => simp [ffillAux]
  | cons x xs ih => cases x <;> simp [ffillAux, ih]

theorem ffill_length {α : Type} (l : List (Option α)) :
    (ffill l).length = l.length := ffillAux_length none l

theorem ffillAux_getD_some {α : Type} (c : Option α) (l : List (Option α))
    (t : ℕ) (v : α) (h : l.getD t none = some v) :
    (ffillAux c l).getD t none = some v := by
  induction l generalizing c t with
  | nil => simp at h
  | cons x xs ih =>
    cases t with
    | zero => cases x <;> simp_all [ffillAux]
    | succ s =>
      cases x with
      | none =>
        simp only [ffillAux, List.getD_cons_succ] at h ⊢
        exact ih _ _ h
      | some w =>
        simp only [ffillAux, List.getD_cons_succ] at h ⊢
        exact ih _ _ h

theorem ffillAux_getD_none {α : Type} (c : Option α) (l : List (Option α))
    (t : ℕ) (ht : t < l.length) (h : l.getD t none = none) :
    (ffillAux c l).getD t none =
      if t = 0 then c else (ffillAux c l).getD (t - 1) none := by
  induction l generalizing c t with
  | nil => simp at ht
  | cons x xs ih =>
    cases t with
    | zero => cases x <;> simp_all [ffillAux]
    | succ s =>
      cases s with
      | zero =>
        cases x <;> simp_all [ffillAux, List.getD_cons_succ]
      | succ u =>
        have hu : u + 1 < xs.length := by simpa using ht
        cases x with
        | none =>
          simp only [ffillAux, List.getD_cons_succ] at h ⊢
          rw [ih c _ hu h]
          simp
        | some w =>
          simp only [ffillAux, List.getD_cons_succ] at h ⊢
          rw [ih (some w) _ hu h]
          simp

theorem getD_replicate {α : Type} (n i : ℕ) (c d : α) :
    (List.replicate n c).getD i d = if i < n then c else d := by
  by_cases h : i < n
  · simp [List.getD_eq_getElem?_getD, List.getElem?_replicate, h]
  · have : (List.replicate n c).length ≤ i := by simpa using Nat.le_of_not_lt h
    simp [List.getD_eq_getElem?_getD, List.getElem?_eq_none this, h]

theorem sorted_replicate (n : ℕ) (c : ℚ) :
    (List.replicate n c).Sorted (· ≤ ·) := by
  induction n with
  | zero => simp
  | succ m ih =>
    rw [List.replicate_succ, List.sorted_cons]
    exact ⟨fun b hb => le_of_eq (List.eq_of_mem_replicate hb).symm, ih⟩

theorem mergeSort_replicate (n : ℕ) (c : ℚ) :
    (List.replicate n c).mergeSort = List.replicate n c :=
  List.mergeSort_eq_self (sorted_replicate n c)

theorem np_percentile_replicate (n : ℕ) (c p : ℚ)
    (h : (⌊p / 100 * ((n : ℚ) - 1)⌋).toNat < n) :
    np_percentile (List.replicate n c) p = c := by
  simp only [np_percentile, List.length_replicate, mergeSort_replicate,
    getD_replicate, if_pos h]
  split <;> ring

/-! ## C1: determinism of `calculate_var` -/

/-- Claim C1 (status: code_bug). The code's VaR is not a function of
(`portfolio_std_dev`, `portfolio_nominal_value`, confidence) alone: its
z-score is read off a freshly drawn `np.random.normal(0, 1, 100000)` vector,
so two runs with identical history and book can disagree. With
std-dev 1, nominal value 1 and 95% confidence, the draw of 100000 zeros
yields VaR 0 while the draw of 100000 ones yields VaR 1. -/
theorem calculate_var_depends_on_random_draw :
    calculate_var (List.replicate 100000 (0 : ℚ)) (95 / 100) 1 1 = 0 ∧
    calculate_var (List.replicate 100000 (1 : ℚ)) (95 / 100) 1 1 = 1 ∧
    calculate_var (List.replicate 100000 (0 : ℚ)) (95 / 100) 1 1 ≠
      calculate_var (List.replicate 100000 (1 : ℚ)) (95 / 100) 1 1 := by
  have hfloor : ⌊((1 - 95 / 100) * 100 : ℚ) / 100 * (((100000 : ℕ) : ℚ) - 1)⌋
      = 4999 := by
    have harg : ((1 - 95 / 100) * 100 : ℚ) / 100 * (((100000 : ℕ) : ℚ) - 1)
        = 99999 / 20 := by norm_num
    rw [harg, Int.floor_eq_iff]
    norm_num
  have hfl : (⌊((1 - 95 / 100) * 100 : ℚ) / 100 *
      (((100000 : ℕ) : ℚ) - 1)⌋).toNat < 100000 := by
    rw [hfloor]
    norm_num
  have h0 := np_percentile_replicate 100000 0 ((1 - 95 / 100) * 100) hfl
  have h1 := np_percentile_replicate 100000 1 ((1 - 95 / 100) * 100) hfl
  refine ⟨?_, ?_, ?_⟩
  · unfold calculate_var
    rw [h0]
    norm_num
  · unfold calculate_var
    rw [h1]
    norm_num
  · unfold calculate_var
    rw [h0, h1]
    norm_num

/-! ## C3: `calculate_weights` on a zero portfolio nominal value -/

/-- Claim C3 counterexample (status: corrected). With symbol EURUSD in the
book and portfolio nominal value 0, `calculate_weights` does not return an
all-zero weight map: with weights from an earlier call present it returns
them unchanged (here 1/2, not 0), and with no earlier weights it returns the
empty map, which has no entry at all for EURUSD. -/
theorem calculate_weights_zero_nominal_counterexample :
    ((calculate_weights
        ⟨[("EURUSD", 1)], [("EURUSD", 0)], 0, [("EURUSD", (1 : ℚ) / 2)]⟩
      ).position_weights.lookup "EURUSD" = some (1 / 2)) ∧
    (some ((1 : ℚ) / 2) ≠ some (0 : ℚ)) ∧
    ((calculate_weights
        ⟨[("EURUSD", 1)], [("EURUSD", 0)], 0, []⟩
      ).position_weights.lookup "EURUSD" = none) ∧
    (([("EURUSD", (1 : ℚ))].lookup "EURUSD") = some 1) := by
  refine ⟨rfl, ?_, rfl, rfl⟩
  simp only [ne_eq, Option.some.injEq]
  norm_num

/-- Claim C3 as amended: when the portfolio nominal value is 0,
`calculate_weights` performs no division and leaves the whole state — in
particular the weight map — unchanged, returning the previous
`position_weights` (initially the empty map), not an all-zero map. -/
theorem calculate_weights_zero_nominal_returns_previous (st : RiskState)
    (h : st.portfolio_nominal_value = 0) :
    calculate_weights st = st ∧
    ∀ sym : String, (calculate_weights st).position_weights.lookup sym =
      st.position_weights.lookup sym := by
  have hst : calculate_weights st = st := by
    unfold calculate_weights
    rw [if_pos h]
  exact ⟨hst, fun sym => by rw [hst]⟩

/-- Witness for C3's amended theorem at a concrete state. -/
theorem calculate_weights_zero_nominal_witness :
    (RiskState.portfolio_nominal_value
        ⟨[("EURUSD", 1)], [("EURUSD", 0)], 0, [("EURUSD", (1 : ℚ) / 2)]⟩ = 0) ∧
    calculate_weights
        ⟨[("EURUSD", 1)], [("EURUSD", 0)], 0, [("EURUSD", (1 : ℚ) / 2)]⟩ =
      ⟨[("EURUSD", 1)], [("EURUSD", 0)], 0, [("EURUSD", (1 : ℚ) / 2)]⟩ :=
  ⟨rfl, (calculate_weights_zero_nominal_returns_previous _ rfl).1⟩

/-! ## C9: `add_position` and zero lot sizes -/

theorem lookup_eraseKey (book : List (String × ℚ)) (sym : String) :
    (eraseKey book sym).lookup sym = none := by
  induction book with
  | nil => rfl
  | cons p rest ih =>
    obtain ⟨k, w⟩ := p
    by_cases h : k = sym
    · have : eraseKey ((k, w) :: rest) sym = eraseKey rest sym := by
        simp [eraseKey, List.filter_cons, h]
      rw [this]
      exact ih
    · have h2 : eraseKey ((k, w) :: rest) sym = (k, w) :: eraseKey rest sym := by
        simp [eraseKey, List.filter_cons, h]
      have hb : (sym == k) = false := beq_eq_false_iff_ne.mpr (Ne.symm h)
      rw [h2, List.lookup_cons, hb]
      exact ih

theorem lookup_setKey (book : List (String × ℚ)) (sym : String) (v prev : ℚ)
    (h : book.lookup sym = some prev) :
    (setKey book sym v).lookup sym = some v := by
  induction book with
  | nil => simp [List.lookup] at h
  | cons p rest ih =>
    obtain ⟨k, w⟩ := p
    by_cases hp : k = sym
    · subst hp
      have e : setKey ((k, w) :: rest) k v = (k, v) :: setKey rest k v := by
        simp [setKey]
      rw [e]
      simp [List.lookup_cons]
    · have e : setKey ((k, w) :: rest) sym v = (k, w) :: setKey rest sym v := by
        simp [setKey, hp]
      have hb : (sym == k) = false := beq_eq_false_iff_ne.mpr (Ne.symm hp)
      rw [e, List.lookup_cons, hb]
      rw [List.lookup_cons, hb] at h
      exact ih h

theorem lookup_append_single (book : List (String × ℚ)) (sym : String)
    (lot : ℚ) (h : book.lookup sym = none) :
    (book ++ [(sym, lot)]).lookup sym = some lot := by
  induction book with
  | nil => simp [List.lookup]
  | cons p rest ih =>
    obtain ⟨k, w⟩ := p
    by_cases hp : k = sym
    · have hb : (sym == k) = true := by simp [hp]
      rw [List.lookup_cons, hb] at h
      simp at h
    · have hb : (sym == k) = false := beq_eq_false_iff_ne.mpr (Ne.symm hp)
      rw [List.lookup_cons, hb] at h
      rw [List.cons_append, List.lookup_cons, hb]
      exact ih h

/-- Claim C9 counterexample (status: corrected). Adding a zero lot for a
symbol not in the book creates an entry with lot size 0: the book does
contain a zero-lot entry afterwards, where the claim says it never does. -/
theorem add_position_zero_lot_counterexample :
    add_position [] "A" 0 = [("A", 0)] ∧
    (add_position [] "A" 0).lookup "A" = some 0 := by
  exact ⟨rfl, rfl⟩

/-- Claim C9 as amended: after `add_position(symbol, lot)`, a symbol that was
already booked with size `prev` remains present exactly when `prev + lot ≠ 0`
(then with size `prev + lot`); a symbol that was absent is always inserted
with size `lot`, including `lot = 0`, so the zero-free invariant holds only
on the increment path. -/
theorem add_position_lookup (book : List (String × ℚ)) (sym : String)
    (lot : ℚ) :
    (∀ prev : ℚ, book.lookup sym = some prev →
      (add_position book sym lot).lookup sym =
        (if prev + lot = 0 then none else some (prev + lot))) ∧
    (book.lookup sym = none →
      (add_position book sym lot).lookup sym = some lot) := by
  constructor
  · intro prev hprev
    by_cases h0 : prev + lot = 0
    · simp only [add_position, hprev, if_pos h0]
      exact lookup_eraseKey book sym
    · simp only [add_position, hprev, if_neg h0]
      exact lookup_setKey book sym _ _ hprev
  · intro hnone
    simp only [add_position, hnone]
    exact lookup_append_single book sym lot hnone

/-- Witness for C9's amended theorem: cancelling an existing 2-lot position
removes the entry; adding a zero lot for an absent symbol books a zero
entry. -/
theorem add_position_lookup_witness :
    (add_position [("A", (2 : ℚ))] "A" (-2)).lookup "A" = none ∧
    (add_position [("B", (1 : ℚ))] "A" 0).lookup "A" = some 0 := by
  constructor
  · have h := (add_position_lookup [("A", (2 : ℚ))] "A" (-2)).1 2 rfl
    simpa using h
  · have h := (add_position_lookup [("B", (1 : ℚ))] "A" 0).2 rfl
    simpa using h

/-! ## C2: simultaneous double-top and double-bottom conditions -/

/-- Claim C2 counterexample (status: corrected). With the last three pivot
highs 5, 4, 3 and pivot lows 0, 1, 2 in interleaved chronological order, the
double-bottom condition, the double-top condition and the order condition all
hold at once, and the emitted position is -1 — the ambiguity is resolved in
favour of the double top, not forced to NONE. -/
theorem doubles_both_patterns_counterexample :
    doubles_bottom_cond [5, 4, 3] [0, 1, 2] = true ∧
    doubles_top_cond [5, 4, 3] [0, 1, 2] = true ∧
    doubles_order_condition [0, 2, 4] [1, 3, 5] = true ∧
    calculate_doubles_position 1 [1, 3, 5] [0, 2, 4] [5, 4, 3] [0, 1, 2] = -1 := by
  refine ⟨?_, ?_, ?_, ?_⟩ <;> decide

/-- Claim C2 as amended: on a non-NONE base signal with three pivots of each
kind, whenever the order condition holds together with both the double-bottom
and the double-top condition, the emitted position is -1 — the later
double-top assignment overwrites the double-bottom one, rather than the
signal being forced to NONE. -/
theorem doubles_both_patterns_emit_sell (sig : ℤ) (idxh idxl : List ℕ)
    (highs lows : List ℚ) (hs : sig ≠ 0) (hh : 2 < highs.length)
    (hl : 2 < lows.length)
    (ho : doubles_order_condition idxl idxh = true)
    (hbot : doubles_bottom_cond highs lows = true)
    (htop : doubles_top_cond highs lows = true) :
    calculate_doubles_position sig idxh idxl highs lows = -1 := by
  simp only [calculate_doubles_position, if_pos (And.intro hs (And.intro hh hl))]
  simp [ho, htop, hbot]

/-- Witness for C2's amended theorem at the concrete ambiguous pivots. -/
theorem doubles_both_patterns_emit_sell_witness :
    calculate_doubles_position 1 [1, 3, 5] [0, 2, 4] [5, 4, 3] [0, 1, 2] = -1 :=
  doubles_both_patterns_emit_sell 1 [1, 3, 5] [0, 2, 4] [5, 4, 3] [0, 1, 2]
    (by decide) (by decide) (by decide) (by decide) (by decide) (by decide)

/-! ## C5: the validated Williams momentum strategy -/

theorem signal_ite_eq (s : ℤ) (vb vs : Bool) :
    ((if s = 1 ∧ vb = true then (1 : ℤ)
      else if s = -1 ∧ vs = true then -1 else 0) = 1
      ↔ s = 1 ∧ vb = true) ∧
    ((if s = 1 ∧ vb = true then (1 : ℤ)
      else if s = -1 ∧ vs = true then -1 else 0) = -1
      ↔ s = -1 ∧ vs = true) := by
  constructor <;> split_ifs with h1 h2 <;> simp_all

theorem lastTwo_append (l : List ℚ) (a b : ℚ) : lastTwo (l ++ [a, b]) = [a, b] := by
  unfold lastTwo
  have e : (l ++ [a, b]).length - 2 = l.length := by simp
  rw [e, List.drop_left]

theorem lastTwo_length (l : List ℚ) : (lastTwo l).length = l.length - (l.length - 2) := by
  simp [lastTwo]

/-- Claim C5 (status: confirmed). On a base signal edge, with `H0, H1` the
last two pivot highs (most recent last), `L0, L1` the last two pivot lows and
`A` the ATR value: the emitted position is BUY (1) iff the base signal is 1
and `H1 < H0` and (`L1 > L0` or `A ≥ |L1 - L0|`); it is SELL (-1) iff the
base signal is -1 and `L1 > L0` and (`H1 < H0` or `A ≥ |H1 - H0|`); and with
fewer than two pivot highs or fewer than two pivot lows the position is 0. -/
theorem williams_momentum_characterization (sig : ℤ) (hp lp : List ℚ)
    (h0 h1 l0 l1 atr : ℚ) :
    (williams_percent_momentum_position sig (hp ++ [h0, h1]) (lp ++ [l0, l1]) atr = 1
      ↔ sig = 1 ∧ h1 < h0 ∧ (l0 < l1 ∨ |l1 - l0| ≤ atr)) ∧
    (williams_percent_momentum_position sig (hp ++ [h0, h1]) (lp ++ [l0, l1]) atr = -1
      ↔ sig = -1 ∧ l0 < l1 ∧ (h1 < h0 ∨ |h1 - h0| ≤ atr)) ∧
    (∀ hs ls : List ℚ, hs.length < 2 ∨ ls.length < 2 →
      williams_percent_momentum_position sig hs ls atr = 0) := by
  refine ⟨?_, ?_, ?_⟩
  · rw [williams_percent_momentum_position, lastTwo_append, lastTwo_append]
    rw [(signal_ite_eq sig _ _).1]
    simp
  · rw [williams_percent_momentum_position, lastTwo_append, lastTwo_append]
    rw [(signal_ite_eq sig _ _).2]
    simp
  · intro hs ls h
    rw [williams_percent_momentum_position]
    have henough : (decide (1 < (lastTwo hs).length) &&
        decide (1 < (lastTwo ls).length)) = false := by
      rcases h with h | h
      · have : ¬ 1 < (lastTwo hs).length := by rw [lastTwo_length]; omega
        simp [this]
      · have : ¬ 1 < (lastTwo ls).length := by rw [lastTwo_length]; omega
        simp [this]
    rw [henough]
    simp

/-- Witness for C5: the spec section 8 scenario — pivot highs `[10, 9]`, lows
`[5, 6]`, ATR 2, base BUY signal — validates to BUY; and with a single pivot
high the position is forced to 0. -/
theorem williams_momentum_characterization_witness :
    williams_percent_momentum_position 1 [10, 9] [5, 6] 2 = 1 ∧
    williams_percent_momentum_position 1 [10] [5, 6] 2 = 0 := by
  constructor
  · exact (williams_momentum_characterization 1 [] [] 10 9 5 6 2).1.mpr
      ⟨rfl, by norm_num, Or.inl (by norm_num)⟩
  · exact (williams_momentum_characterization 1 [] [] 10 9 5 6 2).2.2 [10] [5, 6]
      (Or.inl (by norm_num))

/-! ## C8: position sizing rounds to the nearest lot step, not down -/

theorem rhe_dist (x : ℚ) : |(rhe x : ℚ) - x| ≤ 1 / 2 := by
  have hfl : (⌊x⌋ : ℚ) ≤ x := Int.floor_le x
  have hfu : x < ⌊x⌋ + 1 := Int.lt_floor_add_one x
  unfold rhe
  split_ifs with h1 h2 h3 <;> rw [abs_le] <;> push_cast <;>
    constructor <;> linarith

theorem rhe_nonneg (x : ℚ) (hx : 0 ≤ x) : 0 ≤ rhe x := by
  have h : (0 : ℤ) ≤ ⌊x⌋ := Int.floor_nonneg.mpr hx
  unfold rhe
  split_ifs <;> omega

theorem pyround2_dist (x : ℚ) : |pyround2 x - x| ≤ 1 / 200 := by
  have h := rhe_dist (x * 100)
  unfold pyround2
  have e : (rhe (x * 100) : ℚ) / 100 - x = ((rhe (x * 100) : ℚ) - x * 100) / 100 := by
    ring
  rw [e, abs_div]
  have e2 : |(100 : ℚ)| = 100 := by norm_num
  rw [e2]
  linarith

theorem pyround2_nonneg (x : ℚ) (hx : 0 ≤ x) : 0 ≤ pyround2 x := by
  unfold pyround2
  have h : (0 : ℤ) ≤ rhe (x * 100) := rhe_nonneg _ (by positivity)
  have h' : (0 : ℚ) ≤ (rhe (x * 100) : ℚ) := by exact_mod_cast h
  linarith

theorem pyround2_step (x : ℚ) : ∃ k : ℤ, pyround2 x = (k : ℚ) / 100 :=
  ⟨rhe (x * 100), rfl⟩

/-- Claim C8 counterexample (status: corrected). With tick value 1, stop
distance 100 points, risk percent 5 and risk base 312 the exact quotient is
0.156 lots; the code returns 0.16 — strictly above the exact quotient and
different from the 0.15 that rounding down to the 0.01 lot step would give.
The order-module revision at pip value 10 * 0.1 = 1 returns the same 0.16. -/
theorem get_position_size_rounds_up_counterexample :
    get_position_size_points 1 100 5 312 = 16 / 100 ∧
    (312 * ((5 : ℚ) / 100) / (100 * 1) = 156 / 1000) ∧
    ((156 / 1000 : ℚ) < 16 / 100) ∧
    ((⌊(156 / 1000 : ℚ) * 100⌋ : ℚ) / 100 = 15 / 100) ∧
    ((16 / 100 : ℚ) ≠ 15 / 100) ∧
    get_position_size (1 / 10) 100 5 312 = 16 / 100 := by
  refine ⟨?_, by norm_num, by norm_num, ?_, by norm_num, ?_⟩
  · norm_num [get_position_size_points, pyround2, rhe]
  · norm_num
  · norm_num [get_position_size, pyround2, rhe]

/-- Claim C8 as amended: the computed lot size is the quotient
`(risk_base * risk_percent/100) / (stop_distance * pip_value_per_lot)`
rounded to the NEAREST 0.01 lot step (ties to even), hence within half a lot
step of the exact quotient and possibly above it, and clamped at 0 in the
order-module revision; the technicals revision rounds the quotient over the
raw tick value the same way. -/
theorem get_position_size_nearest_step (tick stop p b : ℚ)
    (htick : 0 < tick) (hstop : 0 < stop) (hp : 0 ≤ p) (hb : 0 ≤ b) :
    0 ≤ get_position_size tick stop p b ∧
    (∃ k : ℤ, get_position_size tick stop p b = (k : ℚ) / 100) ∧
    |get_position_size tick stop p b - b * (p / 100) / (stop * (10 * tick))| ≤ 1 / 200 ∧
    (∃ k : ℤ, get_position_size_points tick stop p b = (k : ℚ) / 100) ∧
    |get_position_size_points tick stop p b - b * (p / 100) / (stop * tick)| ≤ 1 / 200 := by
  have hq : 0 ≤ b * (p / 100) / (stop * (10 * tick)) := by positivity
  have hmax : get_position_size tick stop p b
      = pyround2 (b * (p / 100) / (stop * (10 * tick))) := by
    unfold get_position_size
    rw [max_eq_right (pyround2_nonneg _ hq)]
  refine ⟨?_, ?_, ?_, ?_, ?_⟩
  · rw [hmax]; exact pyround2_nonneg _ hq
  · rw [hmax]; exact pyround2_step _
  · rw [hmax]; exact pyround2_dist _
  · exact pyround2_step _
  · exact pyround2_dist _

/-- Witness for C8's amended theorem at tick value 1, stop 100, risk 5% of
312. -/
theorem get_position_size_nearest_step_witness :
    0 ≤ get_position_size 1 100 5 312 ∧
    |get_position_size_points 1 100 5 312 - 312 * ((5 : ℚ) / 100) / (100 * 1)| ≤ 1 / 200 := by
  have h := get_position_size_nearest_step 1 100 5 312 (by norm_num)
    (by norm_num) (by norm_num) (by norm_num)
  exact ⟨h.1, h.2.2.2.2⟩

/-! ## Forward-fill characterization used by the swing engines -/

theorem ffill_getD_of_some {α : Type} (l : List (Option α)) (t : ℕ) (v : α)
    (h : l.getD t none = some v) : (ffill l).getD t none = some v :=
  ffillAux_getD_some none l t v h

theorem ffill_getD_of_none {α : Type} (l : List (Option α)) (t : ℕ)
    (ht : t < l.length) (h : l.getD t none = none) :
    (ffill l).getD t none = if t = 0 then none else (ffill l).getD (t - 1) none :=
  ffillAux_getD_none none l t ht h

/-! ## C4: oscillator swing-state transitions are strict at the thresholds -/

/-- Claim C4 counterexample (status: corrected). At bar 2 the lagged
oscillator is -10 (above -20) and the value the bar before is exactly -20
(at, hence at-or-below, the threshold), so the claim's transition rule makes
the state UP; the code's condition `prev_WPR < -20` is strict, no transition
fires anywhere on this series, and the state at bar 2 stays undefined
(`none`, not UP). -/
theorem willpct_swing_boundary_counterexample :
    wprLag1 [some (-20), some (-10), some 0] 2 = some (-10) ∧
    wprLag2 [some (-20), some (-10), some 0] 2 = some (-20) ∧
    ((-20 : ℚ) < -10) ∧ ((-20 : ℚ) ≤ -20) ∧
    calculate_willpct_swing_lines [some (-20), some (-10), some 0] =
      [none, none, none] := by
  refine ⟨rfl, rfl, by norm_num, by norm_num, by decide⟩

/-- Claim C4 as amended: the swing state at bar `t` is driven by the one-bar
lagged oscillator with STRICT threshold comparisons — it becomes UP exactly
when the lagged value is above -20 and the value the bar before was strictly
below -20, becomes DOWN exactly when the lagged value is below -80 and the
value the bar before was strictly above -80, and otherwise forward-fills the
previous bar's state, starting undefined. -/
theorem willpct_swing_characterization (wpr : List (Option ℚ)) (t : ℕ)
    (ht : t < wpr.length) :
    (calculate_willpct_swing_lines wpr).getD t none =
      if (optGtB (wprLag1 wpr t) (-20) && optLtB (wprLag2 wpr t) (-20)) = true
      then some 1
      else if (optLtB (wprLag1 wpr t) (-80) && optGtB (wprLag2 wpr t) (-80)) = true
      then some (-1)
      else if t = 0 then none
      else (calculate_willpct_swing_lines wpr).getD (t - 1) none := by
  have hw : (shiftOpt wpr).getD t none = wprLag1 wpr t := by
    rw [shiftOpt_getD wpr t ht, wprLag1]
  have hw' : t < (shiftOpt wpr).length := by rw [shiftOpt_length]; exact ht
  have hpw : (shiftOpt (shiftOpt wpr)).getD t none = wprLag2 wpr t := by
    rw [shiftOpt_getD _ t hw', wprLag2]
    cases t with
    | zero => simp
    | succ s =>
      cases s with
      | zero =>
        have h0 : 0 < wpr.length := by omega
        rw [if_neg (by omega : (0 : ℕ) + 1 ≠ 0), if_pos (by omega : (0 : ℕ) + 1 ≤ 1)]
        show (shiftOpt wpr).getD 0 none = none
        rw [shiftOpt_getD wpr 0 h0]
        simp
      | succ u =>
        have hu : u + 1 < wpr.length := by omega
        rw [if_neg (by omega : u + 1 + 1 ≠ 0),
          if_neg (by omega : ¬ (u + 1 + 1 ≤ 1))]
        show (shiftOpt wpr).getD (u + 1) none = wpr.getD u none
        rw [shiftOpt_getD wpr (u + 1) hu]
        simp
  have hlen : ((List.range wpr.length).map (fun s =>
      if optGtB ((shiftOpt wpr).getD s none) (-20) &&
          optLtB ((shiftOpt (shiftOpt wpr)).getD s none) (-20) then some (1 : ℤ)
      else if optLtB ((shiftOpt wpr).getD s none) (-80) &&
          optGtB ((shiftOpt (shiftOpt wpr)).getD s none) (-80) then some (-1 : ℤ)
      else none)).length = wpr.length := by
    simp
  have hraw := getD_range_map (fun s =>
      if optGtB ((shiftOpt wpr).getD s none) (-20) &&
          optLtB ((shiftOpt (shiftOpt wpr)).getD s none) (-20) then some (1 : ℤ)
      else if optLtB ((shiftOpt wpr).getD s none) (-80) &&
          optGtB ((shiftOpt (shiftOpt wpr)).getD s none) (-80) then some (-1 : ℤ)
      else none) wpr.length t none ht
  simp only [calculate_willpct_swing_lines]
  by_cases c1 : (optGtB (wprLag1 wpr t) (-20) && optLtB (wprLag2 wpr t) (-20)) = true
  · rw [if_pos c1]
    apply ffill_getD_of_some
    simp only [hraw, hw, hpw]
    rw [if_pos c1]
  · rw [if_neg c1]
    by_cases c2 : (optLtB (wprLag1 wpr t) (-80) && optGtB (wprLag2 wpr t) (-80)) = true
    · rw [if_pos c2]
      apply ffill_getD_of_some
      simp only [hraw, hw, hpw]
      rw [if_neg c1, if_pos c2]
    · rw [if_neg c2]
      have hnone : ((List.range wpr.length).map (fun s =>
          if optGtB ((shiftOpt wpr).getD s none) (-20) &&
              optLtB ((shiftOpt (shiftOpt wpr)).getD s none) (-20) then some (1 : ℤ)
          else if optLtB ((shiftOpt wpr).getD s none) (-80) &&
              optGtB ((shiftOpt (shiftOpt wpr)).getD s none) (-80) then some (-1 : ℤ)
          else none)).getD t none = none := by
        simp only [hraw, hw, hpw]
        rw [if_neg c1, if_neg c2]
      rw [ffill_getD_of_none _ t (by rw [hlen]; exact ht) hnone]

/-- Witness for C4's amended theorem: a genuine strict crossing at bar 2 of
the series -90, -10, 0 yields state UP. -/
theorem willpct_swing_characterization_witness :
    (calculate_willpct_swing_lines [some (-90), some (-10), some 0]).getD 2 none
      = some 1 :=
  (willpct_swing_characterization [some (-90), some (-10), some 0] 2
    (by norm_num)).trans (by decide)

/-! ## C7: the volatility window carries two bars of lag, not one -/

theorem allSome_map_some (l : List ℚ) : allSome (l.map some) = some l := by
  induction l with
  | nil => rfl
  | cons x xs ih => simp [allSome, ih]

/-- Claim C7 counterexample (status: corrected). On the log-return column
NaN, 1, 3, 7, 15 with window 2 the code's volatility (squared) is the sample
variance of the returns 1, 3 — the window ending two returns before the most
recent — while the claim's window, the two most recent returns excluding only
the last bar, is 3, 7 with variance 8. -/
theorem calculate_volatility_two_bar_lag_counterexample :
    calculate_volatility_sq [none, some 1, some 3, some 7, some 15] 2 = some 2 ∧
    spec_volatility_sq [none, some 1, some 3, some 7, some 15] 2 = some 8 ∧
    ((2 : ℚ) ≠ 8) := by
  refine ⟨?_, ?_, by norm_num⟩
  · have e1 : shiftOpt [none, some (1 : ℚ), some 3, some 7, some 15]
        = [none, none, some 1, some 3, some 7] := rfl
    simp only [calculate_volatility_sq, e1, rollingVar]
    norm_num [allSome, sampleVar]
  · simp only [spec_volatility_sq]
    norm_num [allSome, sampleVar]

/-- Claim C7 as amended: for a symbol whose log-return column ends with two
further entries after a fully defined window of `volatility_period` returns,
the stored volatility is the statistic of that window — the `w` returns
ending at the third-from-last bar. The combination of `shift(1)` and
`iloc[-2]` excludes the returns of the two most recent bars, not only the
single most recent one. -/
theorem calculate_volatility_window (pre : List (Option ℚ)) (vals : List ℚ)
    (a b : Option ℚ) (w : ℕ) (hw : 2 ≤ w) (hlen : vals.length = w) :
    calculate_volatility_sq (pre ++ vals.map some ++ [a, b]) w
      = some (sampleVar vals) := by
  have hcol : (pre ++ vals.map some ++ [a, b]).length = pre.length + w + 2 := by
    simp [hlen]
    omega
  have hge : ¬ (pre ++ vals.map some ++ [a, b]).length < 2 := by omega
  rw [calculate_volatility_sq, if_neg hge]
  have hshift : shiftOpt (pre ++ vals.map some ++ [a, b])
      = none :: (pre ++ vals.map some ++ [a]) := by
    show ((none :: (pre ++ vals.map some ++ [a, b])).dropLast) = _
    have e : none :: (pre ++ vals.map some ++ [a, b])
        = (none :: (pre ++ vals.map some ++ [a])) ++ [b] := by simp
    rw [e, List.dropLast_concat]
  rw [hshift, rollingVar]
  have hlens : (none :: (pre ++ vals.map some ++ [a])).length
      = pre.length + w + 2 := by simp [hlen]; omega
  rw [hlens, hcol]
  rw [getD_range_map _ _ _ _ (by omega : pre.length + w + 2 - 2 < pre.length + w + 2)]
  have ht2 : pre.length + w + 2 - 2 = pre.length + w := by omega
  rw [ht2, if_pos ⟨hw, by omega⟩]
  have hdropn : pre.length + w + 1 - w = pre.length + 1 := by omega
  rw [hdropn]
  have hsplit : none :: (pre ++ vals.map some ++ [a])
      = (none :: pre) ++ (vals.map some ++ [a]) := by simp
  rw [hsplit]
  have hplen : pre.length + 1 = (none :: pre).length := by simp
  rw [hplen, List.drop_left]
  have hwlen : w = (vals.map some).length := by simp [hlen]
  rw [hwlen, List.take_left, allSome_map_some]

/-- Witness for C7's amended theorem on the NaN, 1, 3, 7, 15 column with
window 2: the stored statistic is that of the window 1, 3. -/
theorem calculate_volatility_window_witness :
    calculate_volatility_sq [none, some 1, some 3, some 7, some 15] 2
      = some (sampleVar [1, 3]) ∧ sampleVar [1, 3] = 2 :=
  ⟨calculate_volatility_window [none] [1, 3] (some 7) (some 15) 2
      (by norm_num) rfl,
    by norm_num [sampleVar]⟩

/-! ## C10: the breakout swing variant and the initial 0 state -/

theorem pyslice_neg_one (l : List ℚ) (e : Int) (he0 : 0 ≤ e)
    (he : e < (l.length : Int)) : pyslice l (-1) e = [] := by
  simp only [pyslice]
  rw [if_pos (show (-1 : Int) < 0 by omega), if_neg (show ¬ e < 0 by omega)]
  have h1 : (e ⊓ (l.length : Int)).toNat = e.toNat := by omega
  have h2 : ((0 : Int) ⊔ ((l.length : Int) + -1)).toNat = l.length - 1 := by
    omega
  rw [h1, h2]
  have h3 : e.toNat - (l.length - 1) = 0 := by omega
  rw [h3, List.take_zero]

/-- Claim C10 counterexample (status: corrected). With lookback 2 on a series
whose closes (5) sit strictly inside all prior highs (10) and lows (0) — so
no bar is a breakout in the claim's sense — the swingline still leaves the
initial 0 state at bar 2: at index `i = lookback` the Python window
`iloc[i-1-lookback : i-1]` has start index -1 and is empty, both `all(...)`
tests pass vacuously, and the first branch assigns +1 unconditionally. The
claim's assertion that 0 forward-fills until the first breakout bar fails. -/
theorem breakout_initial_state_counterexample :
    calculate_breakout_candles_swing_lines [10, 10, 10, 10] [0, 0, 0, 0]
        [5, 5, 5, 5] 2 = [some 0, some 0, some 1, some 1] ∧
    ((0 : ℚ) < 5) ∧ ((5 : ℚ) < 10) ∧ some (1 : ℤ) ≠ some (0 : ℤ) := by
  refine ⟨by decide, by norm_num, by norm_num, by decide⟩

/-- Claim C10 as amended: bars with index below `lookback` get swingline 0
and the alert generator never fires when the previous bar's swingline is 0
(it fires only on -1 to +1 or +1 to -1 changes); however the 0 state does not
forward-fill until the first breakout: at index `lookback` the comparison
window is empty (Python negative-index slice) and the swingline becomes +1
unconditionally. -/
theorem breakout_warmup_and_alerts (highs lows closes : List ℚ)
    (lookback : ℕ) (hlb : 1 ≤ lookback) (hH : highs.length = closes.length)
    (hL : lows.length = closes.length) :
    (∀ i, i < lookback → i < closes.length →
      (calculate_breakout_candles_swing_lines highs lows closes lookback).getD
        i none = some 0) ∧
    (lookback < closes.length →
      (calculate_breakout_candles_swing_lines highs lows closes lookback).getD
        lookback none = some 1) ∧
    (∀ (swing : List (Option ℤ)) (i : ℕ),
      (calculate_swingline_alerts swing).getD i 0 ≠ 0 →
      (swing.getD i none = some 1 ∧ i ≠ 0 ∧ swing.getD (i - 1) none = some (-1)) ∨
      (swing.getD i none = some (-1) ∧ i ≠ 0 ∧ swing.getD (i - 1) none = some 1)) ∧
    (∀ (swing : List (Option ℤ)) (i : ℕ), 1 ≤ i →
      swing.getD (i - 1) none = some 0 →
      (calculate_swingline_alerts swing).getD i 0 = 0) := by
  have halert : ∀ (swing : List (Option ℤ)) (i : ℕ),
      (calculate_swingline_alerts swing).getD i 0 ≠ 0 →
      (swing.getD i none = some 1 ∧ i ≠ 0 ∧ swing.getD (i - 1) none = some (-1)) ∨
      (swing.getD i none = some (-1) ∧ i ≠ 0 ∧ swing.getD (i - 1) none = some 1) := by
    intro swing i hne
    by_cases hi : i < swing.length
    · rw [calculate_swingline_alerts] at hne
      simp only [getD_range_map _ _ _ _ hi] at hne
      by_cases hz : i = 0
      · subst hz
        simp at hne
      · simp only [if_neg hz] at hne
        split_ifs at hne with ha hb
        · exact Or.inl ⟨ha.1, hz, ha.2⟩
        · exact Or.inr ⟨hb.1, hz, hb.2⟩
        · simp at hne
    · rw [calculate_swingline_alerts] at hne
      rw [getD_range_map_ge _ _ _ _ (by omega)] at hne
      simp at hne
  refine ⟨?_, ?_, halert, ?_⟩
  · intro i hi hilen
    rw [calculate_breakout_candles_swing_lines]
    apply ffill_getD_of_some
    rw [getD_range_map _ _ _ _ hilen, breakout_trend_at, if_pos hi]
  · intro hlen
    rw [calculate_breakout_candles_swing_lines]
    apply ffill_getD_of_some
    rw [getD_range_map _ _ _ _ hlen, breakout_trend_at,
      if_neg (by omega : ¬ lookback < lookback)]
    have hidx : ((lookback : Int) - 1) = ((lookback - 1 : ℕ) : Int) := by omega
    have hget : pyget closes ((lookback : Int) - 1)
        = some (closes.getD (lookback - 1) 0) := by
      rw [pyget, if_neg (by omega : ¬ (lookback : Int) - 1 < 0), hidx]
      rw [Int.toNat_ofNat]
      rw [List.getD_eq_getElem?_getD, List.getElem?_eq_getElem (by omega)]
      simp
    rw [hget]
    have hslice : ((lookback : Int) - 1 - (lookback : Int)) = -1 := by omega
    rw [hslice]
    rw [pyslice_neg_one highs ((lookback : Int) - 1) (by omega) (by omega)]
    simp
  · intro swing i hi hzero
    by_contra hne
    rcases halert swing i hne with ⟨_, _, hprev⟩ | ⟨_, _, hprev⟩ <;>
      rw [hzero] at hprev <;> simp at hprev

/-- Witness for C10's amended theorem: on the non-breakout series the state
is 0 during warm-up and +1 at bar 2; an upward alert needs a previous
swingline of -1, so a previous swingline of 0 yields no signal. -/
theorem breakout_warmup_and_alerts_witness :
    (calculate_breakout_candles_swing_lines [10, 10, 10, 10] [0, 0, 0, 0]
      [5, 5, 5, 5] 2).getD 0 none = some 0 ∧
    (calculate_breakout_candles_swing_lines [10, 10, 10, 10] [0, 0, 0, 0]
      [5, 5, 5, 5] 2).getD 2 none = some 1 ∧
    (calculate_swingline_alerts [some 0, some 1]).getD 1 0 = 0 := by
  have h := breakout_warmup_and_alerts [10, 10, 10, 10] [0, 0, 0, 0]
    [5, 5, 5, 5] 2 (by norm_num) rfl rfl
  exact ⟨h.1 0 (by norm_num) (by norm_num), h.2.1 (by norm_num),
    h.2.2.2 [some 0, some 1] 1 (by norm_num) (by decide)⟩

/-! ## C6: one pivot per swingline run, at the run's price extreme -/

theorem runSplit_nil : runSplit [] = [] := by
  rw [runSplit]

theorem runSplit_cons (x : SwingBar) (xs : List SwingBar) :
    runSplit (x :: xs) =
      (x :: xs.takeWhile (fun y => sameRun x.swing y.swing)) ::
        runSplit (xs.dropWhile (fun y => sameRun x.swing y.swing)) := by
  rw [runSplit]

theorem markRun_length (r : List SwingBar) : (markRun r).length = r.length := by
  cases r with
  | nil => rfl
  | cons x rest =>
    simp only [markRun]
    split_ifs <;> simp

theorem sameRun_none_left (b : Option ℤ) : sameRun none b = false := by
  cases b <;> rfl

theorem sameRun_refl_some (v : ℤ) : sameRun (some v) (some v) = true := by
  simp [sameRun]

theorem sameRun_false_right {a : Option ℤ} {v : ℤ} (h : a ≠ some v) :
    sameRun a (some v) = false := by
  cases a with
  | none => rfl
  | some w =>
    simp only [sameRun, beq_eq_false_iff_ne, ne_eq]
    intro hw
    exact h (by rw [hw])

theorem sameRun_false_left {b : Option ℤ} {v : ℤ} (h : b ≠ some v) :
    sameRun (some v) b = false := by
  cases b with
  | none => rfl
  | some w =>
    simp only [sameRun, beq_eq_false_iff_ne, ne_eq]
    intro hw
    exact h (by rw [hw])

theorem sameRun_true_elim {a b : Option ℤ} (h : sameRun a b = true) :
    ∃ v, a = some v ∧ b = some v := by
  cases a with
  | none => rw [sameRun_none_left] at h; exact absurd h (by simp)
  | some w =>
    cases b with
    | none => simp [sameRun] at h
    | some u =>
      simp only [sameRun, beq_iff_eq] at h
      exact ⟨w, rfl, by rw [h]⟩

theorem runSplit_flatten (l : List SwingBar) : (runSplit l).flatten = l := by
  induction l using runSplit.induct with
  | case1 => rw [runSplit_nil]; rfl
  | case2 x xs ih =>
    rw [runSplit_cons, List.flatten_cons, ih]
    simp [List.takeWhile_append_dropWhile]

theorem calculate_fractal_pivot_points_nil :
    calculate_fractal_pivot_points [] = [] := by
  rw [calculate_fractal_pivot_points, runSplit_nil]
  rfl

theorem calculate_fractal_pivot_points_cons (x : SwingBar) (xs : List SwingBar) :
    calculate_fractal_pivot_points (x :: xs) =
      markRun (x :: xs.takeWhile (fun y => sameRun x.swing y.swing)) ++
        calculate_fractal_pivot_points
          (xs.dropWhile (fun y => sameRun x.swing y.swing)) := by
  rw [calculate_fractal_pivot_points, runSplit_cons]
  rfl

theorem calculate_fractal_pivot_points_length (l : List SwingBar) :
    (calculate_fractal_pivot_points l).length = l.length := by
  induction l using runSplit.induct with
  | case1 => rw [calculate_fractal_pivot_points_nil]; rfl
  | case2 x xs ih =>
    rw [calculate_fractal_pivot_points_cons, List.length_append, markRun_length,
      ih]
    have : (xs.takeWhile (fun y => sameRun x.swing y.swing)).length +
        (xs.dropWhile (fun y => sameRun x.swing y.swing)).length = xs.length := by
      rw [← List.length_append, List.takeWhile_append_dropWhile]
    simp only [List.length_cons]
    omega

theorem runSplit_const (x : SwingBar) (xs : List SwingBar) (v : ℤ)
    (hall : ∀ b ∈ x :: xs, b.swing = some v) :
    runSplit (x :: xs) = [x :: xs] := by
  have hx : x.swing = some v := hall x (List.mem_cons_self x xs)
  have htw : xs.takeWhile (fun y => sameRun x.swing y.swing) = xs := by
    rw [List.takeWhile_eq_self_iff]
    intro a ha
    rw [hx, hall a (List.mem_cons_of_mem x ha)]
    exact sameRun_refl_some v
  have hdw : xs.dropWhile (fun y => sameRun x.swing y.swing) = [] := by
    have e := List.takeWhile_append_dropWhile
      (p := fun y => sameRun x.swing y.swing) (l := xs)
    rw [htw] at e
    have hlen : xs.length +
        (xs.dropWhile (fun y => sameRun x.swing y.swing)).length = xs.length := by
      conv_rhs => rw [← e]
      rw [List.length_append]
    exact List.eq_nil_of_length_eq_zero (by omega)
  rw [runSplit_cons, htw, hdw, runSplit_nil]

theorem getLast?_of_suffix {l t : List SwingBar} (h : t <:+ l) (ht : t ≠ []) :
    t.getLast? = l.getLast? := by
  obtain ⟨s, rfl⟩ := h
  rw [List.getLast?_append]
  cases e : t.getLast? with
  | none => exact absurd (List.getLast?_eq_none_iff.mp e) ht
  | some g => rfl

theorem runSplit_append (l₁ : List SwingBar) : ∀ (l₂ : List SwingBar),
    l₁ ≠ [] →
    (∀ a b, l₁.getLast? = some a → l₂.head? = some b →
      sameRun a.swing b.swing = false) →
    runSplit (l₁ ++ l₂) = runSplit l₁ ++ runSplit l₂ := by
  induction l₁ using runSplit.induct with
  | case1 => intro l₂ h; exact absurd rfl h
  | case2 x xs ih =>
    intro l₂ hne hbound
    cases l₂ with
    | nil => simp [runSplit_nil]
    | cons b t =>
      by_cases hB : (xs.takeWhile (fun y => sameRun x.swing y.swing)).length
          = xs.length
      · have htw : xs.takeWhile (fun y => sameRun x.swing y.swing) = xs :=
          (List.takeWhile_prefix _).eq_of_length hB
        have hdw : xs.dropWhile (fun y => sameRun x.swing y.swing) = [] := by
          have e := List.takeWhile_append_dropWhile
            (p := fun y => sameRun x.swing y.swing) (l := xs)
          rw [htw] at e
          have hlen : xs.length +
              (xs.dropWhile (fun y => sameRun x.swing y.swing)).length
              = xs.length := by
            conv_rhs => rw [← e]
            rw [List.length_append]
          exact List.eq_nil_of_length_eq_zero (by omega)
        have hhead : sameRun x.swing b.swing = false := by
          cases e : xs with
          | nil =>
            apply hbound x b _ rfl
            subst e
            rfl
          | cons y ys =>
            have hgl : (x :: xs).getLast? = xs.getLast? := by
              rw [e]
              exact List.getLast?_cons_cons
            have hxsne : xs ≠ [] := by rw [e]; simp
            obtain ⟨g, hg⟩ : ∃ g, xs.getLast? = some g := by
              cases e2 : xs.getLast? with
              | none => exact absurd (List.getLast?_eq_none_iff.mp e2) hxsne
              | some g => exact ⟨g, rfl⟩
            have hgmem : g ∈ xs := List.mem_of_mem_getLast? hg
            have hpg : sameRun x.swing g.swing = true := by
              have hallx : ∀ a ∈ xs, sameRun x.swing a.swing = true :=
                List.takeWhile_eq_self_iff.mp htw
              exact hallx g hgmem
            obtain ⟨v, hxv, hgv⟩ := sameRun_true_elim hpg
            have hb := hbound g b (by rw [hgl, hg]) rfl
            rw [hgv] at hb
            rw [hxv]
            exact hb
        have htwa : List.takeWhile (fun y => sameRun x.swing y.swing)
            (xs ++ b :: t) = xs := by
          rw [List.takeWhile_append, if_pos hB,
            List.takeWhile_cons_of_neg (by rw [hhead]; simp), List.append_nil]
        have hdwa : List.dropWhile (fun y => sameRun x.swing y.swing)
            (xs ++ b :: t) = b :: t := by
          rw [List.dropWhile_append, hdw]
          simp only [List.isEmpty_nil, if_true]
          rw [List.dropWhile_cons_of_neg (by rw [hhead]; simp)]
        have hrx : runSplit (x :: xs) = [x :: xs] := by
          rw [runSplit_cons, htw, hdw, runSplit_nil]
        rw [List.cons_append, runSplit_cons, htwa, hdwa, hrx]
        simp
      · have hdwne : xs.dropWhile (fun y => sameRun x.swing y.swing) ≠ [] := by
          intro hnil
          apply hB
          have e := List.takeWhile_append_dropWhile
            (p := fun y => sameRun x.swing y.swing) (l := xs)
          rw [hnil, List.append_nil] at e
          rw [e]
        have hxsne : xs ≠ [] := by
          intro hx
          apply hdwne
          rw [hx]
          rfl
        have hglast : (xs.dropWhile (fun y => sameRun x.swing y.swing)).getLast?
            = (x :: xs).getLast? := by
          have h1 := getLast?_of_suffix
            (List.dropWhile_suffix (l := xs) (fun y => sameRun x.swing y.swing))
            hdwne
          rw [h1]
          cases e : xs with
          | nil => exact absurd e hxsne
          | cons y ys => rw [List.getLast?_cons_cons]
        have hbound' : ∀ a b',
            (xs.dropWhile (fun y => sameRun x.swing y.swing)).getLast? = some a →
            (b :: t).head? = some b' → sameRun a.swing b'.swing = false := by
          intro a b' ha hb'
          exact hbound a b' (by rw [← hglast]; exact ha) hb'
        have htwa : List.takeWhile (fun y => sameRun x.swing y.swing)
            (xs ++ b :: t)
            = List.takeWhile (fun y => sameRun x.swing y.swing) xs := by
          rw [List.takeWhile_append, if_neg hB]
        have hdwa : List.dropWhile (fun y => sameRun x.swing y.swing)
            (xs ++ b :: t)
            = List.dropWhile (fun y => sameRun x.swing y.swing) xs ++ b :: t := by
          rw [List.dropWhile_append]
          have hie : (xs.dropWhile (fun y => sameRun x.swing y.swing)).isEmpty
              = false := by
            cases e : xs.dropWhile (fun y => sameRun x.swing y.swing) with
            | nil => exact absurd e hdwne
            | cons z zs => rfl
          rw [hie]
          simp
        rw [List.cons_append, runSplit_cons, htwa, hdwa,
          ih (b :: t) hdwne hbound']
        conv_rhs => rw [runSplit_cons]
        rfl

theorem firstMaxIdx_lt (l : List ℚ) (h : l ≠ []) : firstMaxIdx l < l.length := by
  induction l with
  | nil => exact absurd rfl h
  | cons x xs ih =>
    cases xs with
    | nil => simp [firstMaxIdx]
    | cons y t =>
      simp only [firstMaxIdx]
      split
      · have := ih (by simp)
        simp only [List.length_cons] at this ⊢
        omega
      · simp

theorem le_getD_firstMaxIdx (l : List ℚ) : ∀ y ∈ l, y ≤ l.getD (firstMaxIdx l) 0 := by
  induction l with
  | nil => intro y hy; simp at hy
  | cons x xs ih =>
    cases xs with
    | nil =>
      intro y hy
      simp only [List.mem_singleton] at hy
      subst hy
      simp [firstMaxIdx]
    | cons z t =>
      intro y hy
      simp only [firstMaxIdx]
      split
      case isTrue hlt =>
        rw [List.getD_cons_succ]
        rcases List.mem_cons.mp hy with rfl | hy'
        · exact le_of_lt hlt
        · exact ih y hy'
      case isFalse hge =>
        rw [List.getD_cons_zero]
        rcases List.mem_cons.mp hy with rfl | hy'
        · exact le_refl y
        · exact (ih y hy').trans (le_of_not_lt hge)

theorem firstMinIdx_lt (l : List ℚ) (h : l ≠ []) : firstMinIdx l < l.length := by
  induction l with
  | nil => exact absurd rfl h
  | cons x xs ih =>
    cases xs with
    | nil => simp [firstMinIdx]
    | cons y t =>
      simp only [firstMinIdx]
      split
      · have := ih (by simp)
        simp only [List.length_cons] at this ⊢
        omega
      · simp

theorem getD_firstMinIdx_le (l : List ℚ) : ∀ y ∈ l, l.getD (firstMinIdx l) 0 ≤ y := by
  induction l with
  | nil => intro y hy; simp at hy
  | cons x xs ih =>
    cases xs with
    | nil =>
      intro y hy
      simp only [List.mem_singleton] at hy
      subst hy
      simp [firstMinIdx]
    | cons z t =>
      intro y hy
      simp only [firstMinIdx]
      split
      case isTrue hlt =>
        rw [List.getD_cons_succ]
        rcases List.mem_cons.mp hy with rfl | hy'
        · exact le_of_lt hlt
        · exact ih y hy'
      case isFalse hge =>
        rw [List.getD_cons_zero]
        rcases List.mem_cons.mp hy with rfl | hy'
        · exact le_refl y
        · exact (le_of_not_lt hge).trans (ih y hy')

theorem getD_map_at {α β : Type} (f : α → β) (l : List α) (k : ℕ)
    (h : k < l.length) (d : β) (d' : α) :
    (l.map f).getD k d = f (l.getD k d') := by
  rw [List.getD_eq_getElem?_getD, List.getD_eq_getElem?_getD,
    List.getElem?_map, List.getElem?_eq_getElem h]
  simp

theorem markRun_up (r : List SwingBar) (hr : r ≠ [])
    (hall : ∀ b ∈ r, b.swing = some 1) :
    ∃ k, k < r.length ∧ (markRun r).getD k none = some 1 ∧
      (∀ m, m < r.length → m ≠ k → (markRun r).getD m none = none) ∧
      (∀ b ∈ r, b.high ≤ (r.getD k ⟨none, 0, 0⟩).high) := by
  obtain ⟨x, rest, rfl⟩ := List.exists_cons_of_ne_nil hr
  have hx : x.swing = some 1 := hall x (List.mem_cons_self x rest)
  have hmark : markRun (x :: rest) = (List.range (x :: rest).length).map
      (fun k => if k = firstMaxIdx ((x :: rest).map (fun b => b.high))
        then some 1 else none) := by
    simp only [markRun]
    rw [if_neg (by rw [hx]; simp), if_pos hx]
  have hhne : (x :: rest).map (fun b => b.high) ≠ [] := by simp
  have hk : firstMaxIdx ((x :: rest).map (fun b => b.high))
      < (x :: rest).length := by
    have h1 := firstMaxIdx_lt _ hhne
    rwa [List.length_map] at h1
  refine ⟨firstMaxIdx ((x :: rest).map (fun b => b.high)), hk, ?_, ?_, ?_⟩
  · rw [hmark, getD_range_map _ _ _ _ hk, if_pos rfl]
  · intro m hm hne
    rw [hmark, getD_range_map _ _ _ _ hm, if_neg hne]
  · intro b hb
    have h1 : b.high ∈ (x :: rest).map (fun b => b.high) :=
      List.mem_map_of_mem _ hb
    have h2 := le_getD_firstMaxIdx _ b.high h1
    rwa [getD_map_at (fun b => b.high) (x :: rest) _ hk 0 ⟨none, 0, 0⟩] at h2

theorem markRun_down (r : List SwingBar) (hr : r ≠ [])
    (hall : ∀ b ∈ r, b.swing = some (-1)) :
    ∃ k, k < r.length ∧ (markRun r).getD k none = some (-1) ∧
      (∀ m, m < r.length → m ≠ k → (markRun r).getD m none = none) ∧
      (∀ b ∈ r, (r.getD k ⟨none, 0, 0⟩).low ≤ b.low) := by
  obtain ⟨x, rest, rfl⟩ := List.exists_cons_of_ne_nil hr
  have hx : x.swing = some (-1) := hall x (List.mem_cons_self x rest)
  have hmark : markRun (x :: rest) = (List.range (x :: rest).length).map
      (fun k => if k = firstMinIdx ((x :: rest).map (fun b => b.low))
        then some (-1) else none) := by
    simp only [markRun]
    rw [if_pos hx]
  have hhne : (x :: rest).map (fun b => b.low) ≠ [] := by simp
  have hk : firstMinIdx ((x :: rest).map (fun b => b.low))
      < (x :: rest).length := by
    have h1 := firstMinIdx_lt _ hhne
    rwa [List.length_map] at h1
  refine ⟨firstMinIdx ((x :: rest).map (fun b => b.low)), hk, ?_, ?_, ?_⟩
  · rw [hmark, getD_range_map _ _ _ _ hk, if_pos rfl]
  · intro m hm hne
    rw [hmark, getD_range_map _ _ _ _ hm, if_neg hne]
  · intro b hb
    have h1 : b.low ∈ (x :: rest).map (fun b => b.low) :=
      List.mem_map_of_mem _ hb
    have h2 := getD_firstMinIdx_le _ b.low h1
    rwa [getD_map_at (fun b => b.low) (x :: rest) _ hk 0 ⟨none, 0, 0⟩] at h2

theorem fractal_pivot_none_aux (l : List SwingBar) : ∀ j, j < l.length →
    (l.getD j ⟨none, 0, 0⟩).swing = none →
    (calculate_fractal_pivot_points l).getD j none = none := by
  induction l using runSplit.induct with
  | case1 => intro j hj; simp at hj
  | case2 x xs ih =>
    intro j hj hswing
    have hx : x :: xs = (x :: xs.takeWhile (fun y => sameRun x.swing y.swing))
        ++ xs.dropWhile (fun y => sameRun x.swing y.swing) := by
      simp [List.takeWhile_append_dropWhile]
    rw [calculate_fractal_pivot_points_cons]
    have hrunlen : (markRun (x :: xs.takeWhile
        (fun y => sameRun x.swing y.swing))).length
        = (x :: xs.takeWhile (fun y => sameRun x.swing y.swing)).length :=
      markRun_length _
    by_cases hjr : j < (x :: xs.takeWhile (fun y => sameRun x.swing y.swing)).length
    · have e : (markRun (x :: xs.takeWhile (fun y => sameRun x.swing y.swing)) ++
          calculate_fractal_pivot_points
            (xs.dropWhile (fun y => sameRun x.swing y.swing))).getD j none
          = (markRun (x :: xs.takeWhile
              (fun y => sameRun x.swing y.swing))).getD j none := by
        rw [List.getD_eq_getElem?_getD, List.getElem?_append,
          if_pos (by rw [hrunlen]; exact hjr), ← List.getD_eq_getElem?_getD]
      rw [e]
      have ebar : (x :: xs).getD j ⟨none, 0, 0⟩
          = (x :: xs.takeWhile (fun y => sameRun x.swing y.swing)).getD j
              ⟨none, 0, 0⟩ := by
        conv_lhs => rw [hx]
        rw [List.getD_eq_getElem?_getD, List.getElem?_append, if_pos hjr,
          ← List.getD_eq_getElem?_getD]
      rw [ebar] at hswing
      by_cases hxsn : x.swing = none
      · have htwnil : xs.takeWhile (fun y => sameRun x.swing y.swing) = [] := by
          cases xs with
          | nil => rfl
          | cons z zs =>
            rw [List.takeWhile_cons_of_neg]
            rw [hxsn, sameRun_none_left]
            simp
        rw [htwnil] at hjr hswing ⊢
        have hj0 : j = 0 := by simp at hjr; omega
        subst hj0
        simp only [markRun]
        rw [if_neg (by rw [hxsn]; simp), if_neg (by rw [hxsn]; simp)]
        simp
      · obtain ⟨v, hxs⟩ := Option.ne_none_iff_exists'.mp hxsn
        exfalso
        have hrall : ∀ b ∈ x :: xs.takeWhile (fun y => sameRun x.swing y.swing),
            b.swing = some v := by
          intro b hbmem
          rcases List.mem_cons.mp hbmem with rfl | hbtw
          · exact hxs
          · have hptrue := List.mem_takeWhile_imp hbtw
            obtain ⟨w, hw1, hw2⟩ := sameRun_true_elim hptrue
            rw [hxs] at hw1
            rw [hw2, ← Option.some_inj.mp hw1]
        have hmem : (x :: xs.takeWhile (fun y => sameRun x.swing y.swing)).getD j
            ⟨none, 0, 0⟩ ∈ x :: xs.takeWhile (fun y => sameRun x.swing y.swing) := by
          rw [List.getD_eq_getElem?_getD, List.getElem?_eq_getElem hjr]
          exact List.getElem_mem hjr
        rw [hrall _ hmem] at hswing
        exact Option.noConfusion hswing
    · have hlenx : (x :: xs).length
          = (x :: xs.takeWhile (fun y => sameRun x.swing y.swing)).length
            + (xs.dropWhile (fun y => sameRun x.swing y.swing)).length := by
        conv_lhs => rw [hx]
        rw [List.length_append]
      have hjlen : j - (x :: xs.takeWhile
          (fun y => sameRun x.swing y.swing)).length
          < (xs.dropWhile (fun y => sameRun x.swing y.swing)).length := by
        omega
      have e : (markRun (x :: xs.takeWhile (fun y => sameRun x.swing y.swing)) ++
          calculate_fractal_pivot_points
            (xs.dropWhile (fun y => sameRun x.swing y.swing))).getD j none
          = (calculate_fractal_pivot_points
              (xs.dropWhile (fun y => sameRun x.swing y.swing))).getD
              (j - (x :: xs.takeWhile
                (fun y => sameRun x.swing y.swing)).length) none := by
        rw [List.getD_eq_getElem?_getD, List.getElem?_append,
          if_neg (by rw [hrunlen]; exact hjr), hrunlen,
          ← List.getD_eq_getElem?_getD]
      rw [e]
      apply ih _ hjlen
      have ebar : (x :: xs).getD j ⟨none, 0, 0⟩
          = (xs.dropWhile (fun y => sameRun x.swing y.swing)).getD
              (j - (x :: xs.takeWhile
                (fun y => sameRun x.swing y.swing)).length) ⟨none, 0, 0⟩ := by
        conv_lhs => rw [hx]
        rw [List.getD_eq_getElem?_getD, List.getElem?_append, if_neg hjr,
          ← List.getD_eq_getElem?_getD]
      rwa [ebar] at hswing

/-- Claim C6 (status: confirmed). First part: for every maximal run of
consecutive bars sharing the same defined swingline value `v` (all bars in
`r` carry `some v`, the bar before the run — if any — does not, and neither
does the bar after), the segment of the `isPivot` column covering the run
contains exactly one mark when the run is directional: a single `some 1` at a
bar attaining the run's maximum High when `v = 1`, and a single `some (-1)`
at a bar attaining the run's minimum Low when `v = -1`, all other bars of the
run being unmarked. Second part: bars whose swingline is undefined (NaN) are
never marked. -/
theorem fractal_pivot_one_per_run :
    (∀ (pre r post : List SwingBar) (v : ℤ),
      r ≠ [] →
      (∀ b ∈ r, b.swing = some v) →
      (∀ a, pre.getLast? = some a → a.swing ≠ some v) →
      (∀ b, post.head? = some b → b.swing ≠ some v) →
      (v = 1 → ∃ k, k < r.length ∧
        (((calculate_fractal_pivot_points (pre ++ r ++ post)).drop
          pre.length).take r.length).getD k none = some 1 ∧
        (∀ m, m < r.length → m ≠ k →
          (((calculate_fractal_pivot_points (pre ++ r ++ post)).drop
            pre.length).take r.length).getD m none = none) ∧
        (∀ b ∈ r, b.high ≤ (r.getD k ⟨none, 0, 0⟩).high)) ∧
      (v = -1 → ∃ k, k < r.length ∧
        (((calculate_fractal_pivot_points (pre ++ r ++ post)).drop
          pre.length).take r.length).getD k none = some (-1) ∧
        (∀ m, m < r.length → m ≠ k →
          (((calculate_fractal_pivot_points (pre ++ r ++ post)).drop
            pre.length).take r.length).getD m none = none) ∧
        (∀ b ∈ r, (r.getD k ⟨none, 0, 0⟩).low ≤ b.low))) ∧
    (∀ (bars : List SwingBar) (j : ℕ), j < bars.length →
      (bars.getD j ⟨none, 0, 0⟩).swing = none →
      (calculate_fractal_pivot_points bars).getD j none = none) := by
  constructor
  · intro pre r post v hr hall hpre hpost
    have hseg : ((calculate_fractal_pivot_points (pre ++ r ++ post)).drop
        pre.length).take r.length = markRun r := by
      rw [List.append_assoc]
      have hrhead : ∀ b, (r ++ post).head? = some b → b.swing = some v := by
        intro b hb
        obtain ⟨x, rest, rfl⟩ := List.exists_cons_of_ne_nil hr
        rw [List.cons_append] at hb
        simp only [List.head?_cons, Option.some_inj] at hb
        rw [← hb]
        exact hall x (List.mem_cons_self x rest)
      have h2 : runSplit (r ++ post) = r :: runSplit post := by
        obtain ⟨x, rest, rfl⟩ := List.exists_cons_of_ne_nil hr
        cases post with
        | nil =>
          rw [List.append_nil, runSplit_const x rest v hall, runSplit_nil]
        | cons q qs =>
          rw [runSplit_append (x :: rest) (q :: qs) (by simp) ?_,
            runSplit_const x rest v hall]
          · rfl
          · intro a b ha hb
            have hamem : a ∈ x :: rest := List.mem_of_mem_getLast? ha
            rw [hall a hamem]
            simp only [List.head?_cons, Option.some_inj] at hb
            exact sameRun_false_left (by rw [← hb]; exact hpost q rfl)
      have h1 : runSplit (pre ++ (r ++ post))
          = runSplit pre ++ (r :: runSplit post) := by
        cases hpre0 : pre with
        | nil =>
          rw [List.nil_append, runSplit_nil, List.nil_append, h2]
        | cons pp pps =>
          rw [← hpre0,
            runSplit_append pre (r ++ post) (by rw [hpre0]; simp) ?_, h2]
          intro a b ha hb
          have hbswing : b.swing = some v := hrhead b hb
          rw [hbswing]
          exact sameRun_false_right (hpre a ha)
      show (((((runSplit (pre ++ (r ++ post))).map markRun).flatten).drop
        pre.length).take r.length) = markRun r
      rw [h1, List.map_append, List.flatten_append, List.map_cons,
        List.flatten_cons]
      have hplen : (((runSplit pre).map markRun).flatten).length = pre.length :=
        calculate_fractal_pivot_points_length pre
      rw [← hplen, List.drop_left]
      have hmlen : (markRun r).length = r.length := markRun_length r
      rw [← hmlen, List.take_left]
    constructor
    · intro hv1
      subst hv1
      obtain ⟨k, hk, h1, h2, h3⟩ := markRun_up r hr hall
      exact ⟨k, hk, by rw [hseg]; exact h1,
        fun m hm hne => by rw [hseg]; exact h2 m hm hne, h3⟩
    · intro hvm
      subst hvm
      obtain ⟨k, hk, h1, h2, h3⟩ := markRun_down r hr hall
      exact ⟨k, hk, by rw [hseg]; exact h1,
        fun m hm hne => by rw [hseg]; exact h2 m hm hne, h3⟩
  · exact fractal_pivot_none_aux

/-- Witness for C6 on a concrete series: an UP run of two bars between an
undefined bar and a DOWN bar gets exactly one `some 1` mark at its maximum
high, and the undefined bar is unmarked. -/
theorem fractal_pivot_one_per_run_witness :
    (∃ k, k < ([⟨some 1, 6, 2⟩, ⟨some 1, 8, 3⟩] : List SwingBar).length ∧
      (((calculate_fractal_pivot_points ([⟨none, 5, 1⟩] ++
          [⟨some 1, 6, 2⟩, ⟨some 1, 8, 3⟩] ++ [⟨some (-1), 7, 2⟩])).drop
        1).take 2).getD k none = some 1 ∧
      (∀ m, m < ([⟨some 1, 6, 2⟩, ⟨some 1, 8, 3⟩] : List SwingBar).length →
        m ≠ k →
        (((calculate_fractal_pivot_points ([⟨none, 5, 1⟩] ++
            [⟨some 1, 6, 2⟩, ⟨some 1, 8, 3⟩] ++ [⟨some (-1), 7, 2⟩])).drop
          1).take 2).getD m none = none) ∧
      (∀ b ∈ ([⟨some 1, 6, 2⟩, ⟨some 1, 8, 3⟩] : List SwingBar),
        b.high ≤ (([⟨some 1, 6, 2⟩, ⟨some 1, 8, 3⟩] : List SwingBar).getD k
          ⟨none, 0, 0⟩).high)) ∧
    (calculate_fractal_pivot_points ([⟨none, 5, 1⟩] ++
      [⟨some 1, 6, 2⟩, ⟨some 1, 8, 3⟩] ++ [⟨some (-1), 7, 2⟩])).getD 0 none
      = none := by
  constructor
  · exact (fractal_pivot_one_per_run.1 [⟨none, 5, 1⟩]
      [⟨some 1, 6, 2⟩, ⟨some 1, 8, 3⟩] [⟨some (-1), 7, 2⟩] 1
      (by simp) (by decide)
      (by intro a ha; simp only [List.getLast?_singleton, Option.some_inj] at ha
          rw [← ha]; decide)
      (by intro b hb; simp only [List.head?_cons, Option.some_inj] at hb
          rw [← hb]; decide)).1 rfl
  · exact fractal_pivot_one_per_run.2 ([⟨none, 5, 1⟩] ++
      [⟨some 1, 6, 2⟩, ⟨some 1, 8, 3⟩] ++ [⟨some (-1), 7, 2⟩]) 0
      (by decide) (by decide)

end HaruQuant
